import Mathlib

/-!
# Pintos-KAIST: 17.14 fixed-point arithmetic and the system-call argument screen

A shallow embedding of `include/threads/fixed-point.h` and of the argument
screening that `syscall_handler` (`userprog/syscall.c`) performs before its
dispatch `switch`.

## Machine model

The kernel targets x86-64, where `int` is 32 bits wide and `int64_t` 64 bits.
C values are embedded as mathematical integers (`Int`); every C operation is
followed by the reduction the machine performs:

* `+`, `-`, `*` on `int` wrap modulo `2^32` (`wrap32`), on `int64_t` modulo
  `2^64` (`wrap64`);
* `/` truncates toward zero (`Int.tdiv`) and is the only operation that can
  fail: the `idiv` instruction raises a divide error when the divisor is zero
  and when the quotient is not representable in the operand width
  (`idiv32`, `idiv64`);
* a conversion to a narrower or differently signed integer type keeps the
  low-order bits (`wrap32` for `int64_t`/`uint64_t` to `int`, `to_uint64` for
  `int` to `uint64_t`, i.e. sign extension).

Every operation returns `Option Int`; `none` stands for the divide error.
-/

namespace Pintos

/-! ## Machine integers -/

/-- Reduction of a mathematical integer to the two's-complement `int` range. -/
def wrap32 (v : Int) : Int := (v + 2 ^ 31) % 2 ^ 32 - 2 ^ 31

/-- Reduction of a mathematical integer to the two's-complement `int64_t` range. -/
def wrap64 (v : Int) : Int := (v + 2 ^ 63) % 2 ^ 64 - 2 ^ 63

/-- `#define F (1 << 14)`: fixed-point 1 in 17.14 form. -/
def F : Int := wrap32 (Int.ofNat (1 <<< 14))

/-- `#define INT_MAX ((1 << 31) - 1)`: the shift and the subtraction are `int`
operations, so each is reduced to 32 bits. -/
def INT_MAX : Int := wrap32 (wrap32 (Int.ofNat (1 <<< 31)) - 1)

/-- `#define INT_MIN (-(1 << 31))`. -/
def INT_MIN : Int := wrap32 (-(wrap32 (Int.ofNat (1 <<< 31))))

/-- The value `v` is representable as a signed 32-bit `int`. -/
def isInt32 (v : Int) : Prop := INT_MIN ≤ v ∧ v ≤ INT_MAX

/-- The value `v` is representable as a signed 64-bit `int64_t`. -/
def isInt64 (v : Int) : Prop := -(2 ^ 63) ≤ v ∧ v ≤ 2 ^ 63 - 1

instance (v : Int) : Decidable (isInt32 v) := by unfold isInt32; infer_instance

instance (v : Int) : Decidable (isInt64 v) := by unfold isInt64; infer_instance

/-- C division `a / b` on `int`: truncation toward zero; a divide error when
`b` is zero or when the quotient is not an `int` (`INT_MIN / -1`). -/
def idiv32 (a b : Int) : Option Int :=
  if b = 0 then none
  else if isInt32 (Int.tdiv a b) then some (Int.tdiv a b)
  else none

/-- C division `a / b` on `int64_t`: truncation toward zero; a divide error
when `b` is zero or when the quotient is not an `int64_t`. -/
def idiv64 (a b : Int) : Option Int :=
  if b = 0 then none
  else if isInt64 (Int.tdiv a b) then some (Int.tdiv a b)
  else none

/-! ## `include/threads/fixed-point.h` -/

/-- `int int2fp (int n) { return n * F; }` -/
def int2fp (n : Int) : Option Int := some (wrap32 (n * F))

/-- `int fp2int (int x) { return x / F; }` -/
def fp2int (x : Int) : Option Int := idiv32 x F

/-- `int fp2int_round (int x) { if (x >= 0) return (x + F / 2) / F;
else return (x - F / 2) / F; }` -/
def fp2int_round (x : Int) : Option Int :=
  if x ≥ 0 then
    (idiv32 F 2).bind fun h => idiv32 (wrap32 (x + h)) F
  else
    (idiv32 F 2).bind fun h => idiv32 (wrap32 (x - h)) F

/-- `int add_fp (int x, int y) { return x + y; }` -/
def add_fp (x y : Int) : Option Int := some (wrap32 (x + y))

/-- `int add_both (int x, int n) { return x + n * F; }` -/
def add_both (x n : Int) : Option Int := some (wrap32 (x + wrap32 (n * F)))

/-- `int sub_fp (int x, int y) { return x - y; }` -/
def sub_fp (x y : Int) : Option Int := some (wrap32 (x - y))

/-- `int sub_both (int x, int n) { return x - n * F; }` -/
def sub_both (x n : Int) : Option Int := some (wrap32 (x - wrap32 (n * F)))

/-- `int mult_fp (int x, int y) { return ((int64_t) x) * y / F; }`: the product
and the quotient are `int64_t`, the returned value is converted to `int`. -/
def mult_fp (x y : Int) : Option Int :=
  (idiv64 (wrap64 (x * y)) F).map wrap32

/-- `int mult_both (int x, int n) { return x * n; }` -/
def mult_both (x n : Int) : Option Int := some (wrap32 (x * n))

/-- `int div_fp (int x, int y) { return ((int64_t) x) * F / y; }`: the product
and the quotient are `int64_t`, the returned value is converted to `int`. -/
def div_fp (x y : Int) : Option Int :=
  (idiv64 (wrap64 (x * F)) y).map wrap32

/-- `int div_both (int x, int n) { return x / n; }` -/
def div_both (x n : Int) : Option Int := idiv32 x n

/-! ## `userprog/syscall.c`: the argument screen of `syscall_handler` -/

/-- The general-purpose registers of the interrupt frame that the handler
reads (`f->R.rax`, `f->R.rdi`, ...), each a `uint64_t`. -/
structure gp_registers where
  rax : Nat
  rdi : Nat
  rsi : Nat
  rdx : Nat
  r10 : Nat
  r8 : Nat
  r9 : Nat

/-- The part of `struct intr_frame` that the handler reads: the saved
registers `R` and the user stack pointer `rsp`. -/
structure intr_frame where
  R : gp_registers
  rsp : Nat

/-- What the handler takes from the rest of the kernel, whose definitions are
outside the translated sources: the address-space test `is_kernel_vaddr`
(on a 64-bit address) and whether `pml4_get_page (thread_current ()->pml4, va)`
yields a page (`true`) or `NULL` (`false`). -/
structure Kernel where
  is_kernel_vaddr : Nat → Bool
  pml4_get_page : Nat → Bool

/-- Conversion of a `uint64_t` register to `int`, as in `args[0] = f->R.rdi;`:
the low 32 bits, read as a signed number. -/
def to_int (v : Nat) : Int := wrap32 (Int.ofNat v)

/-- Conversion of an `int` to a 64-bit address, as in `is_kernel_vaddr (args[i])`:
sign extension. -/
def to_uint64 (a : Int) : Nat := (a % 2 ^ 64).toNat

/-- How control leaves the screening part of `syscall_handler`: through
`exit (status)`, which ends the thread and does not return, or by reaching
`switch (sysnum)`. -/
inductive handler_result where
  | exit (status : Int)
  | dispatch (sysnum : Int)
  deriving DecidableEq, Repr

/-- The loop `for (int i = 0; i < 6; i++) if (args[i] != NULL)
if (is_kernel_vaddr (args[i])) exit (-1);` over the remaining entries of
`args`: `true` when it reaches `exit (-1)`. -/
def args_loop (k : Kernel) : List Int → Bool
  | [] => false
  | a :: rest =>
    if a ≠ 0 then
      if k.is_kernel_vaddr (to_uint64 a) then true else args_loop k rest
    else args_loop k rest

/-- The function `syscall_handler` up to its dispatch `switch`. -/
def syscall_handler (k : Kernel) (f : intr_frame) : handler_result :=
  let args : List Int :=
    [to_int f.R.rdi, to_int f.R.rsi, to_int f.R.rdx, to_int f.R.r10, to_int f.R.r8,
      to_int f.R.r9]
  if k.is_kernel_vaddr f.rsp && f.rsp != 0 then handler_result.exit (-1)
  else if !k.pml4_get_page f.rsp then handler_result.exit (-1)
  else if args_loop k args then handler_result.exit (-1)
  else handler_result.dispatch (to_int f.R.rax)

/-- A concrete kernel on which the handler is evaluated: addresses from `0x8004000000` upward are
kernel addresses, and the page at `0x47480000` is the only mapped one. -/
def sample_kernel : Kernel where
  is_kernel_vaddr := fun va => decide (0x8004000000 ≤ va)
  pml4_get_page := fun va => decide (va = 0x47480000)

/-! ## Basic facts about the machine model -/

theorem F_eq : F = 16384 := by decide

theorem INT_MAX_eq : INT_MAX = 2147483647 := by decide

theorem INT_MIN_eq : INT_MIN = -2147483648 := by decide

theorem isInt32_iff (v : Int) : isInt32 v ↔ -2147483648 ≤ v ∧ v ≤ 2147483647 := by
  unfold isInt32
  rw [INT_MIN_eq, INT_MAX_eq]

theorem isInt64_iff (v : Int) :
    isInt64 v ↔ -9223372036854775808 ≤ v ∧ v ≤ 9223372036854775807 := by
  unfold isInt64
  norm_num

theorem wrap32_eq_self {v : Int} (h : isInt32 v) : wrap32 v = v := by
  rw [isInt32_iff] at h
  unfold wrap32
  omega

theorem wrap64_eq_self {v : Int} (h : isInt64 v) : wrap64 v = v := by
  rw [isInt64_iff] at h
  unfold wrap64
  omega

theorem idiv32_eq_some {a b : Int} (hb : b ≠ 0) (hq : isInt32 (Int.tdiv a b)) :
    idiv32 a b = some (Int.tdiv a b) := by
  simp [idiv32, hb, hq]

theorem idiv64_eq_some {a b : Int} (hb : b ≠ 0) (hq : isInt64 (Int.tdiv a b)) :
    idiv64 a b = some (Int.tdiv a b) := by
  simp [idiv64, hb, hq]

/-- Truncating division by a positive divisor, in terms of flooring division
on the magnitude. -/
theorem tdiv_pos_cases (a : Int) {b : Int} (hb : 0 < b) :
    (0 ≤ a ∧ Int.tdiv a b = a / b) ∨ (a < 0 ∧ Int.tdiv a b = -((-a) / b)) := by
  rcases le_or_lt 0 a with ha | ha
  · exact Or.inl ⟨ha, Int.tdiv_eq_ediv ha hb.le⟩
  · refine Or.inr ⟨ha, ?_⟩
    have h1 : Int.tdiv (-(-a)) b = -(Int.tdiv (-a) b) := Int.neg_tdiv (-a) b
    rw [neg_neg] at h1
    rw [h1, Int.tdiv_eq_ediv (by omega) hb.le]

/-- Truncating division never increases the magnitude. -/
theorem natAbs_tdiv_le (a b : Int) : (Int.tdiv a b).natAbs ≤ a.natAbs := by
  rw [Int.natAbs_tdiv]
  exact Nat.div_le_self _ _

theorem abs_tdiv_le (a b : Int) : |Int.tdiv a b| ≤ |a| := by
  rw [Int.abs_eq_natAbs, Int.abs_eq_natAbs]
  exact_mod_cast natAbs_tdiv_le a b

/-- The product of two `int` values fits in 63 bits. -/
theorem abs_mul_int32_le {x y : Int} (hx : isInt32 x) (hy : isInt32 y) :
    |x * y| ≤ 2 ^ 62 := by
  rw [isInt32_iff] at hx hy
  have hxa : |x| ≤ 2 ^ 31 := abs_le.2 ⟨by omega, by omega⟩
  have hya : |y| ≤ 2 ^ 31 := abs_le.2 ⟨by omega, by omega⟩
  have h := mul_le_mul hxa hya (abs_nonneg y) (by norm_num)
  rw [← abs_mul] at h
  calc |x * y| ≤ 2 ^ 31 * 2 ^ 31 := h
    _ = 2 ^ 62 := by norm_num

theorem isInt64_of_abs_le {v : Int} (h : |v| ≤ 2 ^ 62) : isInt64 v := by
  rw [isInt64_iff]
  have h2 := abs_le.1 h
  constructor
  · linarith [h2.1]
  · linarith [h2.2]

/-! ## Round trips and identities -/

/-- C1. Integer round trip: for every integer `n` with `-2^17 ≤ n ≤ 2^17 - 1`,
`fp2int (int2fp n)` returns `n`. -/
theorem fp2int_int2fp (n : Int) (hlo : -(2 ^ 17) ≤ n) (hhi : n ≤ 2 ^ 17 - 1) :
    (int2fp n).bind fp2int = some n := by
  have hfit : isInt32 (n * 16384) := by rw [isInt32_iff]; omega
  have hn : isInt32 n := by rw [isInt32_iff]; omega
  have hq : Int.tdiv (n * 16384) 16384 = n := Int.mul_tdiv_cancel n (by norm_num)
  simp only [int2fp, fp2int, Option.some_bind, F_eq, wrap32_eq_self hfit]
  rw [idiv32_eq_some (by norm_num) (by rw [hq]; exact hn), hq]

theorem fp2int_int2fp_witness :
    (-(2 ^ 17) ≤ (-131072 : Int) ∧ (-131072 : Int) ≤ 2 ^ 17 - 1) ∧
      (int2fp (-131072)).bind fp2int = some (-131072) :=
  ⟨by norm_num, fp2int_int2fp (-131072) (by norm_num) (by norm_num)⟩

/-- C2. Multiplicative identity: for every signed 32-bit fixed-point value `x`,
`mult_fp x (int2fp 1)` returns `x`. -/
theorem mult_fp_one (x : Int) (hx : isInt32 x) :
    (int2fp 1).bind (mult_fp x) = some x := by
  have hx2 := (isInt32_iff x).1 hx
  have h1 : wrap32 (1 * 16384) = 16384 := by decide
  have h64 : isInt64 (x * 16384) := by rw [isInt64_iff]; omega
  have hq : Int.tdiv (x * 16384) 16384 = x := Int.mul_tdiv_cancel x (by norm_num)
  simp only [int2fp, mult_fp, Option.some_bind, F_eq, h1, wrap64_eq_self h64]
  rw [idiv64_eq_some (by norm_num) (by rw [hq, isInt64_iff]; omega), hq]
  simp [wrap32_eq_self hx]

theorem mult_fp_one_witness :
    isInt32 INT_MIN ∧ (int2fp 1).bind (mult_fp INT_MIN) = some INT_MIN :=
  ⟨by decide, mult_fp_one INT_MIN (by decide)⟩

/-- C8. Additive identity: for every signed 32-bit fixed-point value `x`,
`add_fp x 0` returns `x`. -/
theorem add_fp_zero (x : Int) (hx : isInt32 x) : add_fp x 0 = some x := by
  simp [add_fp, wrap32_eq_self hx]

theorem add_fp_zero_witness : isInt32 INT_MAX ∧ add_fp INT_MAX 0 = some INT_MAX :=
  ⟨by decide, add_fp_zero INT_MAX (by decide)⟩

/-! ## Widened multiplication and division -/

/-- C3. `mult_fp` multiplies in widened arithmetic without overflow: for signed
32-bit `x` and `y` the product `x * y` fits in a signed 64-bit integer, and
whenever the quotient `(x * y) / 2^14` truncated toward zero fits in a signed
32-bit int, `mult_fp x y` returns exactly that quotient. -/
theorem mult_fp_exact (x y : Int) (hx : isInt32 x) (hy : isInt32 y) :
    isInt64 (x * y) ∧
      (isInt32 (Int.tdiv (x * y) (2 ^ 14)) →
        mult_fp x y = some (Int.tdiv (x * y) (2 ^ 14))) := by
  have hp : |x * y| ≤ 2 ^ 62 := abs_mul_int32_le hx hy
  have h64 : isInt64 (x * y) := isInt64_of_abs_le hp
  refine ⟨h64, fun hq => ?_⟩
  have hF : F = 2 ^ 14 := by rw [F_eq]; norm_num
  have hq64 : isInt64 (Int.tdiv (x * y) (2 ^ 14)) :=
    isInt64_of_abs_le (le_trans (abs_tdiv_le _ _) hp)
  simp only [mult_fp, hF, wrap64_eq_self h64]
  rw [idiv64_eq_some (by norm_num) hq64, Option.map_some', wrap32_eq_self hq]

theorem mult_fp_exact_witness :
    (isInt32 (-98304) ∧ isInt32 40960) ∧
      isInt64 (-98304 * 40960) ∧
      (isInt32 (Int.tdiv (-98304 * 40960) (2 ^ 14)) →
        mult_fp (-98304) 40960 = some (Int.tdiv (-98304 * 40960) (2 ^ 14))) :=
  ⟨by decide, mult_fp_exact (-98304) 40960 (by decide) (by decide)⟩

/-- C4. `div_fp` divides in widened arithmetic without overflow: for signed
32-bit `x` and non-zero signed 32-bit `y` the intermediate `x * 2^14` fits in a
signed 64-bit integer, and whenever the quotient `(x * 2^14) / y` truncated
toward zero fits in a signed 32-bit int, `div_fp x y` returns exactly that
quotient. -/
theorem div_fp_exact (x y : Int) (hx : isInt32 x) (_hy : isInt32 y) (hy0 : y ≠ 0) :
    isInt64 (x * 2 ^ 14) ∧
      (isInt32 (Int.tdiv (x * 2 ^ 14) y) →
        div_fp x y = some (Int.tdiv (x * 2 ^ 14) y)) := by
  have hx2 := (isInt32_iff x).1 hx
  have hp : |x * 2 ^ 14| ≤ 2 ^ 62 := by
    rw [abs_le]
    constructor <;> omega
  have h64 : isInt64 (x * 2 ^ 14) := isInt64_of_abs_le hp
  refine ⟨h64, fun hq => ?_⟩
  have hF : F = 2 ^ 14 := by rw [F_eq]; norm_num
  have hq64 : isInt64 (Int.tdiv (x * 2 ^ 14) y) :=
    isInt64_of_abs_le (le_trans (abs_tdiv_le _ _) hp)
  simp only [div_fp, hF, wrap64_eq_self h64]
  rw [idiv64_eq_some hy0 hq64, Option.map_some', wrap32_eq_self hq]

theorem div_fp_exact_witness :
    (isInt32 (-98304) ∧ isInt32 (-40960) ∧ (-40960 : Int) ≠ 0) ∧
      isInt64 (-98304 * 2 ^ 14) ∧
      (isInt32 (Int.tdiv (-98304 * 2 ^ 14) (-40960)) →
        div_fp (-98304) (-40960) = some (Int.tdiv (-98304 * 2 ^ 14) (-40960))) :=
  ⟨by decide, div_fp_exact (-98304) (-40960) (by decide) (by decide) (by decide)⟩

/-! ## Conversions back to integers -/

theorem idiv32_F_two : idiv32 F 2 = some 8192 := by decide

/-- Truncating division of an `int` by `F` always succeeds. -/
theorem idiv32_F_eq (a : Int) (ha : isInt32 a) :
    idiv32 a F = some (Int.tdiv a 16384) := by
  have ha2 := (isInt32_iff a).1 ha
  rw [F_eq]
  apply idiv32_eq_some (by norm_num)
  rw [isInt32_iff]
  rcases tdiv_pos_cases a (show (0 : Int) < 16384 by norm_num) with ⟨h0, h⟩ | ⟨h0, h⟩ <;>
    rw [h] <;> omega

/-- C5. `fp2int_round` rounds to the nearest integer: for every signed 32-bit
`x` whose half-scale adjustment does not overflow (`x + 8192` representable
when `x ≥ 0`, `x - 8192` representable when `x < 0`), the result `r` satisfies
`|r * 2^14 - x| ≤ 2^13`, and when `x` lies exactly half-way between two
integers, `r` is the one farther from zero. -/
theorem fp2int_round_nearest (x : Int) (hx : isInt32 x)
    (hpos : 0 ≤ x → isInt32 (x + 8192)) (hneg : x < 0 → isInt32 (x - 8192)) :
    ∃ r, fp2int_round x = some r ∧ |r * 2 ^ 14 - x| ≤ 2 ^ 13 ∧
      ((∃ k : Int, x = k * 2 ^ 14 + 2 ^ 13) → |r| * 2 ^ 14 = |x| + 2 ^ 13) := by
  have hx2 := (isInt32_iff x).1 hx
  rcases le_or_lt 0 x with h0 | h0
  · have hfit := hpos h0
    have hd : Int.tdiv (x + 8192) 16384 = (x + 8192) / 16384 :=
      Int.tdiv_eq_ediv (by omega) (by norm_num)
    refine ⟨(x + 8192) / 16384, ?_, ?_, ?_⟩
    · simp only [fp2int_round, ge_iff_le, h0, if_true, idiv32_F_two, Option.some_bind,
        wrap32_eq_self hfit]
      rw [idiv32_F_eq _ hfit, hd]
    · rw [abs_le]
      constructor <;> omega
    · rintro ⟨k, hk⟩
      rw [abs_of_nonneg (show (0 : Int) ≤ (x + 8192) / 16384 by omega), abs_of_nonneg h0]
      omega
  · have hfit := hneg h0
    have hd : Int.tdiv (x - 8192) 16384 = -((-(x - 8192)) / 16384) := by
      rcases tdiv_pos_cases (x - 8192) (show (0 : Int) < 16384 by norm_num) with
        ⟨h1, _⟩ | ⟨_, h⟩
      · omega
      · exact h
    refine ⟨-((-(x - 8192)) / 16384), ?_, ?_, ?_⟩
    · simp only [fp2int_round, ge_iff_le, not_le.2 h0, if_false, idiv32_F_two,
        Option.some_bind, wrap32_eq_self hfit]
      rw [idiv32_F_eq _ hfit, hd]
    · rw [abs_le]
      constructor <;> omega
    · rintro ⟨k, hk⟩
      rw [abs_of_nonpos (show -((-(x - 8192)) / 16384) ≤ (0 : Int) by omega),
        abs_of_neg h0]
      omega

theorem fp2int_round_nearest_witness :
    (isInt32 (-24576) ∧ (0 ≤ (-24576 : Int) → isInt32 (-24576 + 8192)) ∧
        ((-24576 : Int) < 0 → isInt32 (-24576 - 8192))) ∧
      ∃ r, fp2int_round (-24576) = some r ∧ |r * 2 ^ 14 - (-24576)| ≤ 2 ^ 13 ∧
        ((∃ k : Int, (-24576 : Int) = k * 2 ^ 14 + 2 ^ 13) →
          |r| * 2 ^ 14 = |(-24576 : Int)| + 2 ^ 13) :=
  ⟨⟨by decide, fun _ => by decide, fun _ => by decide⟩,
    fp2int_round_nearest (-24576) (by decide) (fun _ => by decide) (fun _ => by decide)⟩

/-- C6. `fp2int` truncates toward zero: for every signed 32-bit `x`, `fp2int x`
is the unique integer `q` with `|q| * 2^14 ≤ |x| < (|q| + 1) * 2^14` whose sign
agrees with `x` (`q = 0` when `|x| < 2^14`); for negative `x` it is the ceiling
of `x / 2^14`, not the floor: `fp2int (-1)` is `0` while the floor is `-1`. -/
theorem fp2int_truncates (x : Int) (hx : isInt32 x) :
    ∃ q, fp2int x = some q ∧
      (|q| * 2 ^ 14 ≤ |x| ∧ |x| < (|q| + 1) * 2 ^ 14 ∧ (0 ≤ x → 0 ≤ q) ∧ (x ≤ 0 → q ≤ 0)) ∧
      (∀ p : Int, |p| * 2 ^ 14 ≤ |x| → |x| < (|p| + 1) * 2 ^ 14 → (0 ≤ x → 0 ≤ p) →
        (x ≤ 0 → p ≤ 0) → p = q) ∧
      (|x| < 2 ^ 14 → q = 0) ∧
      (x < 0 → q = ⌈(x : ℚ) / 2 ^ 14⌉) ∧
      fp2int (-1) = some 0 ∧ ⌊((-1 : Int) : ℚ) / 2 ^ 14⌋ = -1 := by
  have hx2 := (isInt32_iff x).1 hx
  refine ⟨Int.tdiv x 16384, by rw [fp2int, idiv32_F_eq x hx], ?_, ?_, ?_, ?_, by decide, ?_⟩
  · rcases tdiv_pos_cases x (show (0 : Int) < 16384 by norm_num) with ⟨h0, h⟩ | ⟨h0, h⟩
    · rw [h, abs_of_nonneg (show (0 : Int) ≤ x / 16384 by omega), abs_of_nonneg h0]
      refine ⟨by omega, by omega, fun _ => by omega, fun _ => by omega⟩
    · rw [h, abs_of_nonpos (show -(-x / 16384) ≤ (0 : Int) by omega), abs_of_neg h0]
      refine ⟨by omega, by omega, fun _ => by omega, fun _ => by omega⟩
  · intro p hp1 hp2 hp3 hp4
    rcases tdiv_pos_cases x (show (0 : Int) < 16384 by norm_num) with ⟨h0, h⟩ | ⟨h0, h⟩
    · have hp0 := hp3 h0
      rw [abs_of_nonneg hp0, abs_of_nonneg h0] at hp1 hp2
      rw [h]
      omega
    · have hp0 := hp4 h0.le
      rw [abs_of_nonpos hp0, abs_of_neg h0] at hp1 hp2
      rw [h]
      omega
  · intro hlt
    rcases tdiv_pos_cases x (show (0 : Int) < 16384 by norm_num) with ⟨h0, h⟩ | ⟨h0, h⟩
    · rw [abs_of_nonneg h0] at hlt
      rw [h]
      omega
    · rw [abs_of_neg h0] at hlt
      rw [h]
      omega
  · intro h0
    rcases tdiv_pos_cases x (show (0 : Int) < 16384 by norm_num) with ⟨h1, _⟩ | ⟨_, h⟩
    · omega
    · rw [h]
      symm
      rw [Int.ceil_eq_iff]
      have hlo : (-(-x / 16384) - 1) * 16384 < x := by omega
      have hhi : x ≤ -(-x / 16384) * 16384 := by omega
      have hlo2 : (((-(-x / 16384) : Int) : ℚ) - 1) * 16384 < (x : ℚ) := by exact_mod_cast hlo
      have hhi2 : (x : ℚ) ≤ ((-(-x / 16384) : Int) : ℚ) * 16384 := by exact_mod_cast hhi
      have h14 : (2 : ℚ) ^ 14 = 16384 := by norm_num
      rw [h14]
      constructor
      · rw [lt_div_iff₀ (by norm_num)]
        exact hlo2
      · rw [div_le_iff₀ (by norm_num)]
        exact hhi2
  · rw [Int.floor_eq_iff]
    norm_num

theorem fp2int_truncates_witness :
    isInt32 (-49153) ∧
    ∃ q, fp2int (-49153) = some q ∧
      (|q| * 2 ^ 14 ≤ |(-49153 : Int)| ∧ |(-49153 : Int)| < (|q| + 1) * 2 ^ 14 ∧
        (0 ≤ (-49153 : Int) → 0 ≤ q) ∧ ((-49153 : Int) ≤ 0 → q ≤ 0)) ∧
      (∀ p : Int, |p| * 2 ^ 14 ≤ |(-49153 : Int)| → |(-49153 : Int)| < (|p| + 1) * 2 ^ 14 →
        (0 ≤ (-49153 : Int) → 0 ≤ p) → ((-49153 : Int) ≤ 0 → p ≤ 0) → p = q) ∧
      (|(-49153 : Int)| < 2 ^ 14 → q = 0) ∧
      ((-49153 : Int) < 0 → q = ⌈((-49153 : Int) : ℚ) / 2 ^ 14⌉) ∧
      fp2int (-1) = some 0 ∧ ⌊((-1 : Int) : ℚ) / 2 ^ 14⌋ = -1 :=
  ⟨by decide, fp2int_truncates (-49153) (by decide)⟩

/-! ## Failure modes -/

theorem isInt32_wrap32 (v : Int) : isInt32 (wrap32 v) := by
  rw [isInt32_iff]
  unfold wrap32
  omega

/-- The quotient of two `int` values is an `int` except for `INT_MIN / -1`. -/
theorem isInt32_tdiv_iff (x n : Int) (hx : isInt32 x) (hn : n ≠ 0) :
    isInt32 (Int.tdiv x n) ↔ ¬ (x = INT_MIN ∧ n = -1) := by
  have hx2 := (isInt32_iff x).1 hx
  rw [isInt32_iff, INT_MIN_eq]
  by_cases h1 : n = 1
  · subst h1
    rw [Int.tdiv_one]
    constructor
    · intro _ h
      omega
    · intro _
      exact hx2
  by_cases h2 : n = -1
  · subst h2
    rw [Int.tdiv_neg, Int.tdiv_one]
    constructor
    · intro h h3
      omega
    · intro h
      constructor
      · omega
      · by_contra hc
        exact h ⟨by omega, rfl⟩
  · have hq : (Int.tdiv x n).natAbs = x.natAbs / n.natAbs := Int.natAbs_tdiv x n
    have hn2 : 2 ≤ n.natAbs := by omega
    have hle : x.natAbs / n.natAbs ≤ x.natAbs / 2 :=
      Nat.div_le_div_left hn2 (by norm_num)
    constructor
    · intro _ h
      omega
    · intro _
      constructor <;> omega

theorem div_fp_eq_none_iff (x y : Int) (hx : isInt32 x) : div_fp x y = none ↔ y = 0 := by
  constructor
  · intro h
    by_contra hy0
    have hx2 := (isInt32_iff x).1 hx
    have hp : |x * 16384| ≤ 2 ^ 62 := by
      rw [abs_le]
      constructor <;> omega
    have h64 : isInt64 (x * 16384) := isInt64_of_abs_le hp
    have hq64 : isInt64 (Int.tdiv (x * 16384) y) :=
      isInt64_of_abs_le (le_trans (abs_tdiv_le _ _) hp)
    simp only [div_fp, F_eq, wrap64_eq_self h64] at h
    rw [idiv64_eq_some hy0 hq64] at h
    simp at h
  · intro h
    subst h
    simp [div_fp, idiv64]

theorem div_both_eq_none_iff (x n : Int) (hx : isInt32 x) :
    div_both x n = none ↔ (n = 0 ∨ (x = INT_MIN ∧ n = -1)) := by
  unfold div_both idiv32
  by_cases hn : n = 0
  · simp [hn]
  · have h := isInt32_tdiv_iff x n hx hn
    by_cases hq : isInt32 (Int.tdiv x n)
    · have h2 := h.1 hq
      simp only [hn, hq, if_true, if_false, false_or]
      constructor
      · intro h3
        cases h3
      · intro h3
        exact absurd h3 h2
    · have h2 : x = INT_MIN ∧ n = -1 := by
        by_contra hc
        exact hq (h.2 hc)
      simp only [hn, hq, if_false, false_or]
      exact ⟨fun _ => h2, fun _ => trivial⟩

theorem mult_fp_isSome (x y : Int) (hx : isInt32 x) (hy : isInt32 y) :
    (mult_fp x y).isSome = true := by
  have hp : |x * y| ≤ 2 ^ 62 := abs_mul_int32_le hx hy
  have h64 : isInt64 (x * y) := isInt64_of_abs_le hp
  have hq64 : isInt64 (Int.tdiv (x * y) 16384) :=
    isInt64_of_abs_le (le_trans (abs_tdiv_le _ _) hp)
  simp only [mult_fp, F_eq, wrap64_eq_self h64]
  rw [idiv64_eq_some (by norm_num) hq64]
  rfl

theorem fp2int_round_isSome (x : Int) : (fp2int_round x).isSome = true := by
  unfold fp2int_round
  split <;>
    simp only [idiv32_F_two, Option.some_bind, idiv32_F_eq _ (isInt32_wrap32 _)] <;> rfl

/-- C7 (as stated, refuted). `div_both` fails on `INT_MIN / -1` although the
divisor is not zero. -/
theorem div_both_fails_nonzero_divisor :
    isInt32 INT_MIN ∧ isInt32 (-1) ∧
      ¬ (div_both INT_MIN (-1) = none ↔ (-1 : Int) = 0) := by
  decide

/-- C7 (amended). Over signed 32-bit inputs `div_fp x y` fails exactly when
`y = 0`; `div_both x n` fails exactly when `n = 0` or when the quotient
overflows (`x = INT_MIN`, `n = -1`); each of the other nine operations returns
a value. -/
theorem failure_modes (x y n : Int) (hx : isInt32 x) (hy : isInt32 y) (hn : isInt32 n) :
    (div_fp x y = none ↔ y = 0) ∧
      (div_both x n = none ↔ (n = 0 ∨ (x = INT_MIN ∧ n = -1))) ∧
      (int2fp n).isSome = true ∧ (fp2int x).isSome = true ∧
      (fp2int_round x).isSome = true ∧ (add_fp x y).isSome = true ∧
      (add_both x n).isSome = true ∧ (sub_fp x y).isSome = true ∧
      (sub_both x n).isSome = true ∧ (mult_fp x y).isSome = true ∧
      (mult_both x n).isSome = true := by
  have _ := hn
  refine ⟨div_fp_eq_none_iff x y hx, div_both_eq_none_iff x n hx, rfl, ?_,
    fp2int_round_isSome x, rfl, rfl, rfl, rfl, mult_fp_isSome x y hx hy, rfl⟩
  rw [fp2int, idiv32_F_eq x hx]
  rfl

theorem failure_modes_witness :
    (isInt32 INT_MIN ∧ isInt32 0 ∧ isInt32 (-1)) ∧
      (div_fp INT_MIN 0 = none ↔ (0 : Int) = 0) ∧
      (div_both INT_MIN (-1) = none ↔ ((-1 : Int) = 0 ∨ (INT_MIN = INT_MIN ∧ (-1 : Int) = -1))) ∧
      (int2fp (-1)).isSome = true ∧ (fp2int INT_MIN).isSome = true ∧
      (fp2int_round INT_MIN).isSome = true ∧ (add_fp INT_MIN 0).isSome = true ∧
      (add_both INT_MIN (-1)).isSome = true ∧ (sub_fp INT_MIN 0).isSome = true ∧
      (sub_both INT_MIN (-1)).isSome = true ∧ (mult_fp INT_MIN 0).isSome = true ∧
      (mult_both INT_MIN (-1)).isSome = true :=
  ⟨by decide, failure_modes INT_MIN 0 (-1) (by decide) (by decide) (by decide)⟩

/-! ## Direct operations against widened operations -/

/-- A common positive factor cancels in a truncating division. -/
theorem tdiv_mul_mul_right (a b : Int) {c : Int} (hc : 0 < c) :
    Int.tdiv (a * c) (b * c) = Int.tdiv a b := by
  have key : ∀ u v : Int, 0 ≤ u → 0 ≤ v → Int.tdiv (u * c) (v * c) = Int.tdiv u v := by
    intro u v hu hv
    rw [Int.tdiv_eq_ediv (mul_nonneg hu hc.le) (mul_nonneg hv hc.le),
      Int.tdiv_eq_ediv hu hv, Int.mul_ediv_mul_of_pos_left _ _ hc]
  rcases le_or_lt 0 a with ha | ha <;> rcases le_or_lt 0 b with hb | hb
  · exact key a b ha hb
  · have h := key a (-b) ha (by omega)
    rw [neg_mul, Int.tdiv_neg, Int.tdiv_neg] at h
    exact neg_injective h
  · have h := key (-a) b (by omega) hb
    rw [neg_mul, Int.neg_tdiv, Int.neg_tdiv] at h
    exact neg_injective h
  · have h := key (-a) (-b) (by omega) (by omega)
    rw [neg_mul, neg_mul, Int.neg_tdiv, Int.neg_tdiv, Int.tdiv_neg, Int.tdiv_neg] at h
    exact neg_injective (neg_injective h)

/-- C9. The direct fixed-by-integer operations agree with the widened
fixed-by-fixed operations on the converted integer: for signed 32-bit `x` and
`-2^17 ≤ n ≤ 2^17 - 1`, (i) if `x * n` fits in a signed 32-bit int then
`mult_both x n` and `mult_fp x (int2fp n)` return the same value, and (ii) if
`n ≠ 0` and `(x, n) ≠ (INT_MIN, -1)` then `div_both x n` and
`div_fp x (int2fp n)` return the same value. -/
theorem direct_ops_agree (x n : Int) (hx : isInt32 x) (hlo : -(2 ^ 17) ≤ n)
    (hhi : n ≤ 2 ^ 17 - 1) :
    (isInt32 (x * n) →
        ∃ v, mult_both x n = some v ∧ (int2fp n).bind (mult_fp x) = some v) ∧
      (n ≠ 0 → ¬ (x = INT_MIN ∧ n = -1) →
        ∃ v, div_both x n = some v ∧ (int2fp n).bind (div_fp x) = some v) := by
  have hx2 := (isInt32_iff x).1 hx
  have hfit : isInt32 (n * 16384) := by rw [isInt32_iff]; omega
  have hconv : int2fp n = some (n * 16384) := by
    simp only [int2fp, F_eq, wrap32_eq_self hfit]
  constructor
  · intro hxn
    refine ⟨x * n, by simp only [mult_both, wrap32_eq_self hxn], ?_⟩
    have hp : |x * (n * 16384)| ≤ 2 ^ 62 := abs_mul_int32_le hx hfit
    have h64 : isInt64 (x * (n * 16384)) := isInt64_of_abs_le hp
    have hq : Int.tdiv (x * (n * 16384)) 16384 = x * n := by
      rw [← mul_assoc]
      exact Int.mul_tdiv_cancel (x * n) (by norm_num)
    have hq64 : isInt64 (Int.tdiv (x * (n * 16384)) 16384) :=
      isInt64_of_abs_le (le_trans (abs_tdiv_le _ _) hp)
    simp only [hconv, Option.some_bind, mult_fp, F_eq, wrap64_eq_self h64]
    rw [idiv64_eq_some (by norm_num) hq64, Option.map_some', hq, wrap32_eq_self hxn]
  · intro hn0 hne
    have hq32 : isInt32 (Int.tdiv x n) := (isInt32_tdiv_iff x n hx hn0).2 hne
    refine ⟨Int.tdiv x n, ?_, ?_⟩
    · rw [div_both, idiv32_eq_some hn0 hq32]
    · have hp : |x * 16384| ≤ 2 ^ 62 := by
        rw [abs_le]
        constructor <;> omega
      have h64 : isInt64 (x * 16384) := isInt64_of_abs_le hp
      have hq : Int.tdiv (x * 16384) (n * 16384) = Int.tdiv x n :=
        tdiv_mul_mul_right x n (by norm_num)
      have hq64 : isInt64 (Int.tdiv (x * 16384) (n * 16384)) :=
        isInt64_of_abs_le (le_trans (abs_tdiv_le _ _) hp)
      simp only [hconv, Option.some_bind, div_fp, F_eq, wrap64_eq_self h64]
      rw [idiv64_eq_some (by omega) hq64, Option.map_some', hq, wrap32_eq_self hq32]

theorem direct_ops_agree_witness :
    (isInt32 (-40961) ∧ -(2 ^ 17) ≤ (-3 : Int) ∧ (-3 : Int) ≤ 2 ^ 17 - 1) ∧
      (isInt32 (-40961 * -3) →
        ∃ v, mult_both (-40961) (-3) = some v ∧
          (int2fp (-3)).bind (mult_fp (-40961)) = some v) ∧
      ((-3 : Int) ≠ 0 → ¬ ((-40961 : Int) = INT_MIN ∧ (-3 : Int) = -1) →
        ∃ v, div_both (-40961) (-3) = some v ∧
          (int2fp (-3)).bind (div_fp (-40961)) = some v) :=
  ⟨by decide, direct_ops_agree (-40961) (-3) (by decide) (by decide) (by decide)⟩

/-! ## The argument screen of `syscall_handler` -/

/-- The screen does reject an argument whose `int` copy is non-zero and
sign-extends to a kernel address, once the stack pointer has passed. -/
theorem syscall_handler_rejects_copy (k : Kernel) (f : intr_frame)
    (hsp : (k.is_kernel_vaddr f.rsp && f.rsp != 0) = false)
    (hmap : k.pml4_get_page f.rsp = true)
    (hrdi : to_int f.R.rdi ≠ 0) (hker : k.is_kernel_vaddr (to_uint64 (to_int f.R.rdi)) = true) :
    syscall_handler k f = handler_result.exit (-1) := by
  simp [syscall_handler, args_loop, hsp, hmap, hrdi, hker]

/-- C10 (evaluation of the code where it departs from the claim). A frame whose
`rdi` holds a non-null kernel address `kaddr`, whose other argument registers
are zero and whose stack pointer `uaddr` is a mapped user address, reaches the
dispatch `switch` whenever the `int` copy of `kaddr` is zero or no longer a
kernel address: the screen tests the 32-bit copy, not the register. -/
theorem syscall_handler_admits_kernel_pointer (k : Kernel) (kaddr uaddr sysnum : Nat)
    (hk : k.is_kernel_vaddr kaddr = true) (hnz : kaddr ≠ 0)
    (hu : k.is_kernel_vaddr uaddr = false) (hm : k.pml4_get_page uaddr = true)
    (hcopy : to_int kaddr = 0 ∨ k.is_kernel_vaddr (to_uint64 (to_int kaddr)) = false) :
    (kaddr ≠ 0 ∧ k.is_kernel_vaddr kaddr = true) ∧
      syscall_handler k ⟨⟨sysnum, kaddr, 0, 0, 0, 0, 0⟩, uaddr⟩ =
        handler_result.dispatch (to_int sysnum) := by
  refine ⟨⟨hnz, hk⟩, ?_⟩
  have h0 : to_int 0 = 0 := by decide
  rcases hcopy with hc | hc
  · simp [syscall_handler, args_loop, hu, hm, hc, h0]
  · simp [syscall_handler, args_loop, hu, hm, hc, h0]

theorem syscall_handler_admits_kernel_pointer_witness :
    (sample_kernel.is_kernel_vaddr 0x8004000000 = true ∧ 0x8004000000 ≠ 0 ∧
        sample_kernel.is_kernel_vaddr 0x47480000 = false ∧
        sample_kernel.pml4_get_page 0x47480000 = true ∧
        (to_int 0x8004000000 = 0 ∨
          sample_kernel.is_kernel_vaddr (to_uint64 (to_int 0x8004000000)) = false)) ∧
      (0x8004000000 ≠ 0 ∧ sample_kernel.is_kernel_vaddr 0x8004000000 = true) ∧
      syscall_handler sample_kernel ⟨⟨9, 0x8004000000, 0, 0, 0, 0, 0⟩, 0x47480000⟩ =
        handler_result.dispatch (to_int 9) :=
  ⟨by decide, syscall_handler_admits_kernel_pointer sample_kernel 0x8004000000 0x47480000 9
    (by decide) (by decide) (by decide) (by decide) (by decide)⟩

end Pintos
